import Mathlib

/-!
Shallow embedding of the typed-identifier core of `src/src/utils.rs`
(oxidator): the generic `Id<T>` wrapper, its equality / hashing /
cloning / formatting, the `pop_set` collection utility, the
human-facing code generator `rand_id_unsafe`, and a model of the
external `base_62` codec the Display path routes through.

Conventions of the embedding:
* `u64` values are `Nat` (the code never masks, so `Id::new` stores the
  value unchanged; theorems add `< 2^64` bounds where the width matters);
* Rust strings are `List Char`;
* a `HashSet` is a `List` of its elements in iteration order, each
  element occurring once;
* a computation that can panic (an `unwrap` on `None`) returns
  `PResult`, with `PResult.panicked` marking the panic.
-/

set_option autoImplicit false

namespace Oxidator

/-- Outcome of a Rust computation that may panic: `ok a` is a normal
return, `panicked` an aborted `unwrap`. -/
inductive PResult (α : Type) where
  | ok (a : α)
  | panicked
  deriving DecidableEq, Repr

/-- `pub type IdValue = u64;` — raw identifier values, as `Nat`. -/
def IdValue : Type := Nat

/-- `pub struct Id<T> { pub value: IdValue, phantom: PhantomData<T> }`.
The phantom tag `T` is carried only in the type index. -/
structure Id (T : Type) where
  value : Nat
  deriving Repr, DecidableEq

/-- `Id::<T>::new(value)` — wraps the raw value, never fails. -/
def Id.new (T : Type) (value : Nat) : Id T :=
  { value := value }

/-- `impl<T> PartialEq for Id<T>`: `self.value == other.value`. -/
def Id.eq {T : Type} (self other : Id T) : Bool :=
  self.value == other.value

/-- `impl<T> Hash for Id<T>`: `self.value.hash(state)` — feeds only the
raw value to the hasher.  The hasher is abstracted as a state type `σ`
with a word-absorbing step function. -/
def Id.hash {T : Type} {σ : Type} (hashWord : σ → Nat → σ) (state : σ)
    (self : Id T) : σ :=
  hashWord state self.value

/-- `impl<T> Clone for Id<T>`: `Self::new(self.value)`. -/
def Id.clone {T : Type} (self : Id T) : Id T :=
  Id.new T self.value

/-- `pub fn rand_id<T>() -> Id<T> { Id::new(rand::prelude::random()) }`.
The drawn `u64` is abstracted as the parameter `draw`. -/
def rand_id (T : Type) (draw : Nat) : Id T :=
  Id.new T draw

/-- `const ID_CHARS: [char; 62]` — the shuffled 62-symbol alphabet of
the human-facing code generator. -/
def ID_CHARS : List Char :=
  ['A', 'Z', 'E', 'R', 'T', 'Y', 'U', 'I', 'O', 'P', 'Q', 'S', 'D', 'F',
   'G', 'H', 'J', 'K', 'L', 'M', 'W', 'X', 'C', 'V', 'B', 'N', 'a', 'z',
   'e', 'r', 't', 'y', 'u', 'i', 'o', 'p', 'q', 's', 'd', 'f', 'g', 'h',
   'j', 'k', 'l', 'm', 'w', 'x', 'c', 'v', 'b', 'n', '0', '1', '2', '3',
   '4', '5', '6', '7', '8', '9']

/-- `const ID_SIZE: usize = 5;` -/
def ID_SIZE : Nat := 5

/-- `SliceRandom::choose`: `None` on an empty slice, otherwise the entry
at a random index `< len`.  The random draw is abstracted as `k`, reduced
into range exactly as `gen_range(0..len)` guarantees. -/
def chooseChar (l : List Char) (k : Nat) : Option Char :=
  if l.length = 0 then none else some (l.getD (k % l.length) ' ')

/-- The loop body of `rand_id_unsafe` (embedded as `rand_id_string`): `n` characters still to push, the
`i`-th random draw taken from the source `r`; each `choose` result is
unwrapped (panicking on `None`). -/
def randChars (r : Nat → Nat) : Nat → Nat → PResult (List Char)
  | 0, _ => .ok []
  | n + 1, i =>
    match chooseChar ID_CHARS (r i) with
    | none => .panicked
    | some c =>
      match randChars r n (i + 1) with
      | .panicked => .panicked
      | .ok rest => .ok (c :: rest)

/-- `pub fn rand_id_unsafe() -> String` — pushes `ID_SIZE` characters
chosen from `ID_CHARS`, unwrapping each choice. -/
def rand_id_string (r : Nat → Nat) : PResult (List Char) :=
  randChars r ID_SIZE 0

/-- `HashSet::take(&elt)`: removes and returns the stored element equal
to `elt`, `none` when absent; the remaining elements keep their order. -/
def hsTake {T : Type} [DecidableEq T] : List T → T → Option (T × List T)
  | [], _ => none
  | y :: ys, x =>
    if y = x then some (y, ys)
    else
      match hsTake ys x with
      | none => none
      | some (e, rest) => some (e, y :: rest)

/-- `pub fn pop_set<T>(set: &mut HashSet<T>) -> T`:
`let elt = set.iter().next().cloned().unwrap(); set.take(&elt).unwrap()`.
Both `unwrap`s are panic sites. -/
def pop_set {T : Type} [DecidableEq T] (set : List T) :
    PResult (T × List T) :=
  match set.head? with
  | none => .panicked
  | some elt =>
    match hsTake set elt with
    | none => .panicked
    | some (e, rest) => .ok (e, rest)

/-- The extraction error the spec requires (`EmptyCollection`). -/
inductive ExtractError where
  | emptyCollection
  deriving DecidableEq, Repr

/-- Spec-side extraction, following the spec's words: on a non-empty set
remove and return the first element in iteration order, on the empty set
return the `EmptyCollection` error instead of aborting.  Kept for
comparison with the code's `pop_set`. -/
def pop_set_spec {T : Type} [DecidableEq T] (set : List T) :
    Except ExtractError (T × List T) :=
  match set with
  | [] => .error .emptyCollection
  | x :: xs => .ok (x, xs)

end Oxidator

namespace Oxidator.base62

/-! Model of the external `base_62::base62` codec, which is a dependency
of the repository (its source is not under `src/`). -/

/-- Modelled from the spec: the codec's 62-symbol alphabet with "a
conventional digit/letter ordering" (§4.2); the crate's own alphabet is
not in `src/`. -/
def ALPHABET : List Char :=
  ['0', '1', '2', '3', '4', '5', '6', '7', '8', '9',
   'A', 'B', 'C', 'D', 'E', 'F', 'G', 'H', 'I', 'J', 'K', 'L', 'M',
   'N', 'O', 'P', 'Q', 'R', 'S', 'T', 'U', 'V', 'W', 'X', 'Y', 'Z',
   'a', 'b', 'c', 'd', 'e', 'f', 'g', 'h', 'i', 'j', 'k', 'l', 'm',
   'n', 'o', 'p', 'q', 'r', 's', 't', 'u', 'v', 'w', 'x', 'y', 'z']

/-- A byte sequence read as a little-endian numeral: the first byte is
least significant. -/
def leNat : List Nat → Nat
  | [] => 0
  | b :: rest => b + 256 * leNat rest

/-- The `w`-byte little-endian representation of `n` (the inverse of
`leNat` below `256 ^ w`). -/
def natToLeBytes : Nat → Nat → List Nat
  | 0, _ => []
  | w + 1, n => n % 256 :: natToLeBytes w (n / 256)

/-- Base-62 digits of `n`, most significant first, computed with a fuel
argument so the definition is structural (`fuel > n` suffices). -/
def toDigitsAux : Nat → Nat → List Nat
  | 0, _ => []
  | fuel + 1, n =>
    if n < 62 then [n] else toDigitsAux fuel (n / 62) ++ [n % 62]

/-- Base-62 digits of `n`, most significant first; `0` encodes as `[0]`. -/
def toDigits (n : Nat) : List Nat :=
  toDigitsAux (n + 1) n

/-- Value of a most-significant-first base-62 digit string. -/
def ofDigits : List Nat → Nat
  | [] => 0
  | d :: ds => d * 62 ^ ds.length + ofDigits ds

/-- Position of `c` in a character list, `none` when absent. -/
def indexInList (c : Char) : List Char → Option Nat
  | [] => none
  | a :: as => if a = c then some 0 else (indexInList c as).map (· + 1)

/-- Base-62 digit value of a character, `none` outside the alphabet. -/
def charIndex (c : Char) : Option Nat :=
  indexInList c ALPHABET

/-- Digit values of an encoded string, `none` as soon as one character
falls outside the alphabet. -/
def decodeDigits : List Char → Option (List Nat)
  | [] => some []
  | c :: cs =>
    match charIndex c, decodeDigits cs with
    | some d, some ds => some (d :: ds)
    | _, _ => none

/-- Decode errors. -/
inductive CodecError where
  | invalidEncoding
  deriving DecidableEq, Repr

/-- Modelled from the spec: `base_62::base62::encode` (§4.2) — the byte
sequence, read as one numeral, is written in radix 62 with the
conventional alphabet; total, no error case. -/
def encode (bytes : List Nat) : List Char :=
  (toDigits (leNat bytes)).map (fun d => ALPHABET.getD d ' ')

/-- Modelled from the spec: `base_62::base62::decode` (§4.2) — fails
with `InvalidEncoding` on a character outside the alphabet or when the
value exceeds the fixed byte width `width`, otherwise recovers the
`width`-byte representation. -/
def decode (width : Nat) (s : List Char) : Except CodecError (List Nat) :=
  match decodeDigits s with
  | none => .error .invalidEncoding
  | some ds =>
    if 256 ^ width ≤ ofDigits ds then .error .invalidEncoding
    else .ok (natToLeBytes width (ofDigits ds))

end Oxidator.base62

namespace Oxidator

/-- Rust's `str::split("::")`, on `List Char`: greedy left-to-right split
at every occurrence of two consecutive colons. -/
def splitCC : List Char → List (List Char)
  | [] => [[]]
  | [c] => [[c]]
  | c :: d :: rest =>
    if c = ':' ∧ d = ':' then [] :: splitCC rest
    else
      match splitCC (d :: rest) with
      | [] => [[c]]
      | seg :: segs => (c :: seg) :: segs

/-- `impl fmt::Debug for Id<T>`: the value's 8 little-endian bytes are
base-62 encoded; the tag's `type_name()` is printed through `{:?}`
(which wraps it in quotes), split on `"::"`, the last segment taken and
its final character dropped (`&simple_name[..len - 1]`, removing the
closing quote); output is `simple_name ++ "#" ++ encoded`. -/
def debugFmt (typeName : List Char) (v : Nat) : List Char :=
  let x := base62.natToLeBytes 8 v
  let name := '"' :: (typeName ++ ['"'])
  let simpleName := (splitCC name).getLast!
  let simpleName := simpleName.dropLast
  simpleName ++ '#' :: base62.encode x

/-- `impl fmt::Display for Id<T>`: `write!(f, "{:?}", self)` — delegates
to the `Debug` formatting. -/
def displayFmt (typeName : List Char) (v : Nat) : List Char :=
  debugFmt typeName v

/-- The spec's `<SimpleKindName>`: the tag's type name with any
namespace qualification stripped, i.e. the last `"::"`-separated
segment of the type name itself.  Kept for comparison with the code's
`debugFmt`. -/
def specSimpleName (typeName : List Char) : List Char :=
  (splitCC typeName).getLast!

end Oxidator

namespace Oxidator

/-! ### Helper lemmas -/

theorem chooseChar_ID_CHARS (k : Nat) :
    ∃ c, chooseChar ID_CHARS k = some c ∧ c ∈ ID_CHARS := by
  refine ⟨ID_CHARS.getD (k % ID_CHARS.length) ' ', ?_, ?_⟩
  · rw [chooseChar, if_neg (by decide)]
  · have h : k % ID_CHARS.length < ID_CHARS.length :=
      Nat.mod_lt k (by decide)
    rw [List.getD_eq_getElem ID_CHARS ' ' h]
    exact List.getElem_mem h

theorem randChars_ok (r : Nat → Nat) :
    ∀ n i : Nat, ∃ s : List Char,
      randChars r n i = .ok s ∧ s.length = n ∧ ∀ c ∈ s, c ∈ ID_CHARS
  | 0, _ => ⟨[], rfl, rfl, by simp⟩
  | n + 1, i => by
    obtain ⟨s, hs, hlen, hmem⟩ := randChars_ok r n (i + 1)
    obtain ⟨c, hc, hcmem⟩ := chooseChar_ID_CHARS (r i)
    refine ⟨c :: s, ?_, by simp [hlen], ?_⟩
    · rw [randChars, hc, hs]
    · intro c' hc'
      rcases List.mem_cons.mp hc' with h | h
      · exact h ▸ hcmem
      · exact hmem c' h

/-! ### Claims -/

/-- C1: for every tag type and all raw values, `Id::new(v1) == Id::new(v2)`
holds iff `v1 = v2`; the hash of an `Id<T>` is exactly the hash of its raw
value; and neither equality nor hashing depends on the tag. -/
theorem claim_C1_eq_hash_value_only (T₁ T₂ : Type) (v₁ v₂ : Nat) :
    (Id.eq (Id.new T₁ v₁) (Id.new T₁ v₂) = true ↔ v₁ = v₂)
    ∧ (∀ (σ : Type) (hashWord : σ → Nat → σ) (state : σ),
        Id.hash hashWord state (Id.new T₁ v₁) = hashWord state v₁)
    ∧ Id.eq (Id.new T₁ v₁) (Id.new T₁ v₂) = Id.eq (Id.new T₂ v₁) (Id.new T₂ v₂)
    ∧ (∀ (σ : Type) (hashWord : σ → Nat → σ) (state : σ),
        Id.hash hashWord state (Id.new T₁ v₁)
          = Id.hash hashWord state (Id.new T₂ v₁)) := by
  refine ⟨?_, fun σ hw st => rfl, rfl, fun σ hw st => rfl⟩
  simp [Id.eq, Id.new]

/-- C2 counterexample: on the empty set the code's `pop_set` panics
(the `unwrap` of `iter().next()` aborts); it does not surface the
`EmptyCollection` error the claim asserts (shown next to the spec-side
behaviour for contrast). -/
theorem claim_C2_counterexample :
    pop_set ([] : List Nat) = PResult.panicked
    ∧ pop_set_spec ([] : List Nat)
        = Except.error ExtractError.emptyCollection :=
  ⟨rfl, rfl⟩

/-- C2 (amended): extracting from a set panics exactly when the set is
empty — the failure is an abort, not an `EmptyCollection` error value
returned to the caller. -/
theorem claim_C2_empty_pop_panics {T : Type} [DecidableEq T]
    (set : List T) :
    pop_set set = PResult.panicked ↔ set = [] := by
  cases set with
  | nil => simp [pop_set]
  | cons x xs => simp [pop_set, hsTake]

/-- C6: on a non-empty set, `pop_set` removes and returns the first
element in iteration order; the returned element is a member and the
remaining set is the original minus that element (singleton case
included as the instance `xs = []`). -/
theorem claim_C6_pop_nonempty {T : Type} [DecidableEq T]
    (x : T) (xs : List T) :
    pop_set (x :: xs) = PResult.ok (x, xs)
    ∧ x ∈ x :: xs
    ∧ (x :: xs).erase x = xs := by
  refine ⟨?_, List.mem_cons_self x xs, List.erase_cons_head x xs⟩
  simp [pop_set, hsTake]

/-- C5: `rand_id_unsafe` always returns a string of exactly `ID_SIZE = 5`
characters, each drawn from the 62-character `ID_CHARS` alphabet; and two
distinct random sources can legitimately produce the same string. -/
theorem claim_C5_code_shape (r : Nat → Nat) :
    (∃ s, rand_id_string r = .ok s ∧ s.length = 5 ∧ ∀ c ∈ s, c ∈ ID_CHARS)
    ∧ (∃ r₁ r₂ : Nat → Nat,
        r₁ ≠ r₂ ∧ rand_id_string r₁ = rand_id_string r₂) := by
  constructor
  · exact randChars_ok r ID_SIZE 0
  · refine ⟨(fun _ => 0), (fun n => if n < 5 then 0 else 1), ?_, ?_⟩
    · intro h
      have h5 := congrFun h 5
      simp at h5
    · rfl

/-- C8: identifier construction and random generation are total:
`Id::new(v)` stores exactly `v`, and `rand_id` wraps the drawn value
unchanged (it is a plain total function of the draw). -/
theorem claim_C8_construction_total (T : Type) (v draw : Nat) :
    (Id.new T v).value = v
    ∧ rand_id T draw = Id.new T draw
    ∧ (rand_id T draw).value = draw :=
  ⟨rfl, rfl, rfl⟩

/-- C9: cloning operates only on the wrapped value: the clone equals the
original under `==`, carries the same raw value, and is in fact the same
value outright. -/
theorem claim_C9_clone_value_only (T : Type) (x : Id T) :
    Id.eq (Id.clone x) x = true
    ∧ (Id.clone x).value = x.value
    ∧ Id.clone x = x := by
  refine ⟨?_, rfl, rfl⟩
  simp [Id.eq, Id.clone, Id.new]

/-- C10: the `unwrap` inside `rand_id_unsafe` is unreachable: `ID_CHARS`
has 62 entries, so choosing from it always yields a character and the
generator never panics, for any random-source state. -/
theorem claim_C10_no_panic (r : Nat → Nat) :
    ID_CHARS.length = 62
    ∧ (∀ k, (chooseChar ID_CHARS k).isSome = true)
    ∧ rand_id_string r ≠ PResult.panicked := by
  refine ⟨by decide, ?_, ?_⟩
  · intro k
    obtain ⟨c, hc, -⟩ := chooseChar_ID_CHARS k
    rw [hc]; rfl
  · obtain ⟨s, hs, -, -⟩ := randChars_ok r ID_SIZE 0
    rw [rand_id_string, hs]
    exact fun h => PResult.noConfusion h

end Oxidator

namespace Oxidator.base62

theorem ofDigits_append_one (xs : List Nat) (d : Nat) :
    ofDigits (xs ++ [d]) = 62 * ofDigits xs + d := by
  induction xs with
  | nil => simp [ofDigits]
  | cons x xs ih =>
    simp [ofDigits, ih, List.length_append, pow_succ]
    ring

theorem ofDigits_toDigitsAux (fuel : Nat) :
    ∀ n : Nat, n < fuel → ofDigits (toDigitsAux fuel n) = n := by
  induction fuel with
  | zero => intro n h; omega
  | succ fuel ih =>
    intro n h
    rw [toDigitsAux]
    by_cases h62 : n < 62
    · rw [if_pos h62]; simp [ofDigits]
    · rw [if_neg h62, ofDigits_append_one, ih (n / 62) (by omega)]
      omega

theorem ofDigits_toDigits (n : Nat) : ofDigits (toDigits n) = n :=
  ofDigits_toDigitsAux (n + 1) n (Nat.lt_succ_self n)

theorem toDigitsAux_lt (fuel : Nat) :
    ∀ n : Nat, ∀ d ∈ toDigitsAux fuel n, d < 62 := by
  induction fuel with
  | zero => intro n d hd; simp [toDigitsAux] at hd
  | succ fuel ih =>
    intro n d hd
    rw [toDigitsAux] at hd
    by_cases h62 : n < 62
    · rw [if_pos h62] at hd; simp at hd; omega
    · rw [if_neg h62] at hd
      rcases List.mem_append.mp hd with h | h
      · exact ih (n / 62) d h
      · simp at h; omega

theorem toDigits_lt (n : Nat) : ∀ d ∈ toDigits n, d < 62 :=
  toDigitsAux_lt (n + 1) n

theorem leNat_natToLeBytes (w : Nat) :
    ∀ n : Nat, n < 256 ^ w → leNat (natToLeBytes w n) = n := by
  induction w with
  | zero =>
    intro n h
    simp only [pow_zero] at h
    simp [natToLeBytes, leNat]
    omega
  | succ w ih =>
    intro n h
    have hdiv : n / 256 < 256 ^ w := by
      apply Nat.div_lt_of_lt_mul
      rw [pow_succ] at h
      omega
    rw [natToLeBytes, leNat, ih (n / 256) hdiv]
    omega

theorem charIndex_getD (d : Nat) (h : d < 62) :
    charIndex (ALPHABET.getD d ' ') = some d := by
  revert d h
  decide

theorem decodeDigits_map_getD (ds : List Nat) (h : ∀ d ∈ ds, d < 62) :
    decodeDigits (ds.map (fun d => ALPHABET.getD d ' ')) = some ds := by
  induction ds with
  | nil => rfl
  | cons d ds ih =>
    have hd : d < 62 := h d (List.mem_cons_self d ds)
    have hds : ∀ d' ∈ ds, d' < 62 := fun d' h' => h d' (List.mem_cons_of_mem d h')
    simp only [List.map_cons, decodeDigits]
    rw [charIndex_getD d hd, ih hds]

theorem indexInList_eq_none_iff (c : Char) (l : List Char) :
    indexInList c l = none ↔ c ∉ l := by
  induction l with
  | nil => simp [indexInList]
  | cons a as ih =>
    by_cases hac : a = c
    · subst hac; simp [indexInList]
    · simp [indexInList, hac, Option.map_eq_none', ih, Ne.symm hac]

theorem charIndex_eq_none_iff (c : Char) :
    charIndex c = none ↔ c ∉ ALPHABET :=
  indexInList_eq_none_iff c ALPHABET

theorem decodeDigits_eq_none_iff (s : List Char) :
    decodeDigits s = none ↔ ∃ c ∈ s, c ∉ ALPHABET := by
  induction s with
  | nil => simp [decodeDigits]
  | cons c cs ih =>
    cases hc : charIndex c with
    | none =>
      have hcnot : c ∉ ALPHABET := (charIndex_eq_none_iff c).mp hc
      cases hcs : decodeDigits cs with
      | none =>
        simp only [decodeDigits, hc, hcs, true_iff]
        exact ⟨c, List.mem_cons_self c cs, hcnot⟩
      | some ds =>
        simp only [decodeDigits, hc, hcs, true_iff]
        exact ⟨c, List.mem_cons_self c cs, hcnot⟩
    | some d =>
      have hcmem : c ∈ ALPHABET := by
        by_contra hx
        rw [(charIndex_eq_none_iff c).mpr hx] at hc
        cases hc
      cases hcs : decodeDigits cs with
      | none =>
        obtain ⟨c', hmem', hout'⟩ := ih.mp hcs
        simp only [decodeDigits, hc, hcs, true_iff]
        exact ⟨c', List.mem_cons_of_mem c hmem', hout'⟩
      | some ds =>
        simp only [decodeDigits, hc, hcs]
        constructor
        · intro hcontra
          cases hcontra
        · rintro ⟨x, hx, hout⟩
          exfalso
          rcases List.mem_cons.mp hx with rfl | hx'
          · exact hout hcmem
          · have hn := ih.mpr ⟨x, hx', hout⟩
            rw [hcs] at hn
            cases hn

end Oxidator.base62

namespace Oxidator

theorem except_ok_of_ne_error {α : Type} (e : Except base62.CodecError α)
    (h : e ≠ .error .invalidEncoding) : ∃ bs, e = .ok bs := by
  cases e with
  | ok a => exact ⟨a, rfl⟩
  | error err => cases err; exact absurd rfl h

/-- C4: decoding the base-62 encoding of a `u64`'s 8-byte little-endian
representation recovers exactly those 8 bytes, so the numeric suffix of
a Display string reconstructs the original value. -/
theorem claim_C4_roundtrip (v : Nat) (h : v < 2 ^ 64) :
    base62.decode 8 (base62.encode (base62.natToLeBytes 8 v))
      = Except.ok (base62.natToLeBytes 8 v) := by
  have h256 : v < 256 ^ 8 := by norm_num at h ⊢; omega
  have hle : base62.leNat (base62.natToLeBytes 8 v) = v :=
    base62.leNat_natToLeBytes 8 v h256
  have hdig : ∀ d ∈ base62.toDigits v, d < 62 := base62.toDigits_lt v
  rw [base62.encode, hle]
  simp only [base62.decode, base62.decodeDigits_map_getD _ hdig,
    base62.ofDigits_toDigits]
  rw [if_neg (not_le.mpr h256)]

/-- C4 witness: the round trip evaluated at the concrete value
`123456789`. -/
theorem claim_C4_roundtrip_witness :
    123456789 < 2 ^ 64
    ∧ base62.decode 8 (base62.encode (base62.natToLeBytes 8 123456789))
        = Except.ok (base62.natToLeBytes 8 123456789) :=
  ⟨by norm_num, claim_C4_roundtrip 123456789 (by norm_num)⟩

/-- C7: the codec's decode fails with `InvalidEncoding` exactly when the
input contains a character outside the 62-symbol alphabet or decodes to
a value exceeding the fixed byte width, and succeeds otherwise. -/
theorem claim_C7_decode_error_iff (width : Nat) (s : List Char) :
    (base62.decode width s = Except.error base62.CodecError.invalidEncoding
      ↔ (∃ c ∈ s, c ∉ base62.ALPHABET)
        ∨ (∃ ds, base62.decodeDigits s = some ds
            ∧ 256 ^ width ≤ base62.ofDigits ds))
    ∧ ((∃ bs, base62.decode width s = Except.ok bs)
      ↔ ¬ ((∃ c ∈ s, c ∉ base62.ALPHABET)
        ∨ (∃ ds, base62.decodeDigits s = some ds
            ∧ 256 ^ width ≤ base62.ofDigits ds))) := by
  have herr : base62.decode width s
      = Except.error base62.CodecError.invalidEncoding
      ↔ (∃ c ∈ s, c ∉ base62.ALPHABET)
        ∨ (∃ ds, base62.decodeDigits s = some ds
            ∧ 256 ^ width ≤ base62.ofDigits ds) := by
    cases hds : base62.decodeDigits s with
    | none =>
      constructor
      · intro _
        exact Or.inl ((base62.decodeDigits_eq_none_iff s).mp hds)
      · intro _
        simp [base62.decode, hds]
    | some ds =>
      by_cases hov : 256 ^ width ≤ base62.ofDigits ds
      · constructor
        · intro _
          exact Or.inr ⟨ds, rfl, hov⟩
        · intro _
          simp [base62.decode, hds, hov]
      · constructor
        · intro hcontra
          simp [base62.decode, hds, hov] at hcontra
        · rintro (⟨cbad, hmem, hout⟩ | ⟨ds', hds', hov'⟩)
          · exfalso
            have hnone := (base62.decodeDigits_eq_none_iff s).mpr
              ⟨cbad, hmem, hout⟩
            rw [hds] at hnone
            cases hnone
          · exfalso
            cases Option.some.inj hds'
            exact hov hov'
  refine ⟨herr, ?_, ?_⟩
  · rintro ⟨bs, hbs⟩ hcond
    have hcontra := herr.mpr hcond
    rw [hbs] at hcontra
    cases hcontra
  · intro hcond
    exact except_ok_of_ne_error _ (fun h => hcond (herr.mp h))

end Oxidator

namespace Oxidator

theorem getLast!_singleton {α : Type} [Inhabited α] (x : α) :
    ([x] : List α).getLast! = x := rfl

theorem getLast!_cons_ne {α : Type} [Inhabited α] (x : α) (xs : List α)
    (h : xs ≠ []) : (x :: xs).getLast! = xs.getLast! := by
  cases xs with
  | nil => exact absurd rfl h
  | cons y ys => rfl

theorem dropLast_cons_ne {α : Type} (x : α) (xs : List α) (h : xs ≠ []) :
    (x :: xs).dropLast = x :: xs.dropLast := by
  cases xs with
  | nil => exact absurd rfl h
  | cons y ys => rfl

theorem getLast!_append_one {α : Type} [Inhabited α] (l : List α) (x : α) :
    (l ++ [x]).getLast! = x := by
  induction l with
  | nil => rfl
  | cons a l ih =>
    rw [List.cons_append, getLast!_cons_ne a (l ++ [x]) (by simp), ih]

theorem dropLast_append_one {α : Type} (l : List α) (x : α) :
    (l ++ [x]).dropLast = l := by
  induction l with
  | nil => rfl
  | cons a l ih =>
    rw [List.cons_append, dropLast_cons_ne a (l ++ [x]) (by simp), ih]

theorem splitCC_ne_nil : ∀ l : List Char, splitCC l ≠ []
  | [] => by simp [splitCC]
  | [c] => by simp [splitCC]
  | c :: d :: rest => by
    simp only [splitCC]
    by_cases h : c = ':' ∧ d = ':'
    · rw [if_pos h]; simp
    · rw [if_neg h]
      cases hs : splitCC (d :: rest) with
      | nil => simp
      | cons seg segs => simp

theorem splitCC_cons_ne_colon (c d : Char) (rest : List Char)
    (hc : c ≠ ':') :
    splitCC (c :: d :: rest)
      = (c :: (splitCC (d :: rest)).headI) :: (splitCC (d :: rest)).tail := by
  have h : ¬(c = ':' ∧ d = ':') := fun hx => hc hx.1
  simp only [splitCC]
  rw [if_neg h]
  cases hs : splitCC (d :: rest) with
  | nil => exact absurd hs (splitCC_ne_nil (d :: rest))
  | cons seg segs => simp

theorem splitCC_append_single (a : Char) (ha : a ≠ ':') :
    ∀ l : List Char,
      splitCC (l ++ [a])
        = (splitCC l).dropLast ++ [(splitCC l).getLast! ++ [a]]
  | [] => by simp [splitCC, getLast!_singleton]
  | [c] => by
    have h : ¬(c = ':' ∧ a = ':') := fun hx => ha hx.2
    show splitCC (c :: a :: []) = _
    simp only [splitCC]
    rw [if_neg h]
    simp [getLast!_singleton]
  | c :: d :: rest => by
    by_cases h : c = ':' ∧ d = ':'
    · obtain ⟨rfl, rfl⟩ := h
      have ih := splitCC_append_single a ha rest
      have hne := splitCC_ne_nil rest
      show splitCC (':' :: ':' :: (rest ++ [a])) = _
      simp only [splitCC, and_self, if_true]
      rw [ih, dropLast_cons_ne _ _ hne, getLast!_cons_ne _ _ hne]
      simp
    · have ih := splitCC_append_single a ha (d :: rest)
      rw [List.cons_append] at ih
      show splitCC (c :: d :: (rest ++ [a])) = _
      simp only [splitCC]
      rw [if_neg h, if_neg h, ih]
      cases hS : splitCC (d :: rest) with
      | nil => exact absurd hS (splitCC_ne_nil (d :: rest))
      | cons seg segs =>
        cases segs with
        | nil => simp [getLast!_singleton]
        | cons s₂ rest₂ =>
          rw [dropLast_cons_ne seg (s₂ :: rest₂) (by simp),
            getLast!_cons_ne seg (s₂ :: rest₂) (by simp),
            List.cons_append]
          simp
          exact (getLast!_cons_ne (c :: seg) (s₂ :: rest₂) (by simp)).symm

end Oxidator

namespace Oxidator

/-- C3 counterexample: for the unqualified tag name `"Player"` the
`Debug`/`Display` output keeps a leading quote character (an artifact of
rendering the type name through `{:?}` before splitting), so it is not
of the claimed shape `"<SimpleKindName>#<encoded>"`. -/
theorem claim_C3_counterexample :
    debugFmt ['P', 'l', 'a', 'y', 'e', 'r'] 0
      ≠ specSimpleName ['P', 'l', 'a', 'y', 'e', 'r']
          ++ '#' :: base62.encode (base62.natToLeBytes 8 0) := by
  decide

/-- C3 (amended): when the tag's type name is namespace-qualified (its
`"::"`-split has at least two segments), the Debug output is exactly
`"<SimpleKindName>#<encoded>"` with the namespace qualification
stripped and the value's little-endian 8 bytes base-62 encoded, and
Display delegates to Debug; the output is a pure function of the value
and tag name.  (For an unqualified name the code instead keeps a leading
quote in front of the name.) -/
theorem claim_C3_display_shape (typeName : List Char) (v : Nat)
    (h : 2 ≤ (splitCC typeName).length) :
    debugFmt typeName v
      = specSimpleName typeName
          ++ '#' :: base62.encode (base62.natToLeBytes 8 v)
    ∧ displayFmt typeName v = debugFmt typeName v := by
  refine ⟨?_, rfl⟩
  cases typeName with
  | nil => exact absurd h (by decide)
  | cons t₀ tRest =>
    have hB := splitCC_append_single '"' (by decide) (t₀ :: tRest)
    have hdne : (splitCC (t₀ :: tRest)).dropLast ≠ [] := by
      have hlen := List.length_dropLast (splitCC (t₀ :: tRest))
      intro hx
      rw [hx] at hlen
      simp at hlen
      omega
    obtain ⟨d₀, dRest, hdl⟩ :
        ∃ d₀ dRest, (splitCC (t₀ :: tRest)).dropLast = d₀ :: dRest := by
      cases hdl : (splitCC (t₀ :: tRest)).dropLast with
      | nil => exact absurd hdl hdne
      | cons d₀ dRest => exact ⟨d₀, dRest, rfl⟩
    have hM : splitCC (t₀ :: (tRest ++ ['"']))
        = d₀ :: (dRest
            ++ [(splitCC (t₀ :: tRest)).getLast! ++ ['"']]) := by
      rw [← List.cons_append, hB, hdl, List.cons_append]
    have hcons := splitCC_cons_ne_colon '"' t₀ (tRest ++ ['"']) (by decide)
    simp only [debugFmt, specSimpleName]
    rw [List.cons_append, hcons, hM]
    simp only [List.headI, List.tail_cons]
    rw [getLast!_cons_ne _ _ (by simp), getLast!_append_one,
      dropLast_append_one]

/-- C3 witness: the amended statement evaluated at the qualified tag
name `"mod::P"` and value `5`. -/
theorem claim_C3_display_shape_witness :
    2 ≤ (splitCC ['m', 'o', 'd', ':', ':', 'P']).length
    ∧ (debugFmt ['m', 'o', 'd', ':', ':', 'P'] 5
        = specSimpleName ['m', 'o', 'd', ':', ':', 'P']
            ++ '#' :: base62.encode (base62.natToLeBytes 8 5)
      ∧ displayFmt ['m', 'o', 'd', ':', ':', 'P'] 5
          = debugFmt ['m', 'o', 'd', ':', ':', 'P'] 5) :=
  ⟨by decide,
    claim_C3_display_shape ['m', 'o', 'd', ':', ':', 'P'] 5 (by decide)⟩

/-- C2 witness: the amended statement applied at the empty set. -/
theorem claim_C2_empty_pop_panics_witness :
    pop_set ([] : List Nat) = PResult.panicked ↔ ([] : List Nat) = [] :=
  claim_C2_empty_pop_panics ([] : List Nat)

/-- C6 witness: the statement applied at the concrete set `{1, 2}` with
iteration order `[1, 2]`. -/
theorem claim_C6_pop_nonempty_witness :
    pop_set [(1 : Nat), 2] = PResult.ok (1, [2])
    ∧ (1 : Nat) ∈ [(1 : Nat), 2]
    ∧ [(1 : Nat), 2].erase 1 = [2] :=
  claim_C6_pop_nonempty 1 [2]

end Oxidator
